import Mathlib

/-!
Verification development for the HackRX document RAG service
(`api/main.py`, `document_ingestion/document.py`, `Document_Ingestion/document.py`).

Text that the program manipulates character-by-character is modelled as
`List Char`; strings that are only compared or concatenated stay `String`.
Remote services (HTTP download, Gemini embedding and generation, Pinecone)
are modelled as oracles packaged in an `Env` record, and every remote call
is recorded in an event trace so that "no call was made" is expressible.
Machine integers are `Nat` reduced modulo `2 ^ 32` where the MD5 algorithm
overflows.
-/

namespace Rag

/-- Python whitespace characters stripped by `str.strip()` (ASCII part,
which is what the documents and messages in this program contain). -/
def isPySpace (c : Char) : Bool :=
  c = ' ' ∨ c = '\t' ∨ c = '\n' ∨ c = '\r' ∨ c = '\x0b' ∨ c = '\x0c'

/-- `str.strip()` on a character list: drop whitespace from both ends. -/
def pyStrip (l : List Char) : List Char :=
  ((l.dropWhile isPySpace).reverse.dropWhile isPySpace).reverse

/-- `str.lower()` (ASCII case folding, as used on file paths here). -/
def pyLower (l : List Char) : List Char := l.map Char.toLower

/-- Batching worker, structurally recursive on a fuel bound so that it
reduces in the kernel; `fuel ≥ l.length` makes it total. -/
def toBatchesF (n : Nat) : Nat → List α → List (List α)
  | _, [] => []
  | 0, l => [l]
  | fuel + 1, x :: xs =>
    if n = 0 then [x :: xs]
    else (x :: xs).take n :: toBatchesF n fuel ((x :: xs).drop n)

/-- Batches `l[0:n], l[n:2n], ...` as produced by python slicing in a
`range(0, len(l), n)` loop (also used for 64-byte MD5 blocks). -/
def toBatches (n : Nat) (l : List α) : List (List α) := toBatchesF n l.length l

/-! ### MD5 (`hashlib.md5(url.encode()).hexdigest()`), on `Nat` bytes -/

/-- Truncation to a 32-bit word. -/
def w32 (n : Nat) : Nat := n % 4294967296

/-- 32-bit left rotation of `x` (with `x < 2 ^ 32`) by `s` bits. -/
def rotl32 (x s : Nat) : Nat := w32 (x * 2 ^ s) ||| x / 2 ^ (32 - s)

/-- 32-bit complement. -/
def not32 (x : Nat) : Nat := x ^^^ 4294967295

/-- The 64 MD5 sine-derived constants. -/
def md5K : List Nat :=
  [0xd76aa478, 0xe8c7b756, 0x242070db, 0xc1bdceee,
   0xf57c0faf, 0x4787c62a, 0xa8304613, 0xfd469501,
   0x698098d8, 0x8b44f7af, 0xffff5bb1, 0x895cd7be,
   0x6b901122, 0xfd987193, 0xa679438e, 0x49b40821,
   0xf61e2562, 0xc040b340, 0x265e5a51, 0xe9b6c7aa,
   0xd62f105d, 0x02441453, 0xd8a1e681, 0xe7d3fbc8,
   0x21e1cde6, 0xc33707d6, 0xf4d50d87, 0x455a14ed,
   0xa9e3e905, 0xfcefa3f8, 0x676f02d9, 0x8d2a4c8a,
   0xfffa3942, 0x8771f681, 0x6d9d6122, 0xfde5380c,
   0xa4beea44, 0x4bdecfa9, 0xf6bb4b60, 0xbebfbc70,
   0x289b7ec6, 0xeaa127fa, 0xd4ef3085, 0x04881d05,
   0xd9d4d039, 0xe6db99e5, 0x1fa27cf8, 0xc4ac5665,
   0xf4292244, 0x432aff97, 0xab9423a7, 0xfc93a039,
   0x655b59c3, 0x8f0ccc92, 0xffeff47d, 0x85845dd1,
   0x6fa87e4f, 0xfe2ce6e0, 0xa3014314, 0x4e0811a1,
   0xf7537e82, 0xbd3af235, 0x2ad7d2bb, 0xeb86d391]

/-- The per-round MD5 rotation amounts. -/
def md5S : List Nat :=
  [7, 12, 17, 22, 7, 12, 17, 22, 7, 12, 17, 22, 7, 12, 17, 22,
   5, 9, 14, 20, 5, 9, 14, 20, 5, 9, 14, 20, 5, 9, 14, 20,
   4, 11, 16, 23, 4, 11, 16, 23, 4, 11, 16, 23, 4, 11, 16, 23,
   6, 10, 15, 21, 6, 10, 15, 21, 6, 10, 15, 21, 6, 10, 15, 21]

/-- One MD5 round `i` on state `(a, b, c, d)` with message words `m`. -/
def md5Round (m : List Nat) (st : Nat × Nat × Nat × Nat) (i : Nat) :
    Nat × Nat × Nat × Nat :=
  let (a, b, c, d) := st
  let fg : Nat × Nat :=
    if i < 16 then ((b &&& c) ||| (not32 b &&& d), i)
    else if i < 32 then ((d &&& b) ||| (not32 d &&& c), (5 * i + 1) % 16)
    else if i < 48 then (b ^^^ c ^^^ d, (3 * i + 5) % 16)
    else (c ^^^ (b ||| not32 d), 7 * i % 16)
  let f := w32 (fg.1 + a + md5K.getD i 0 + m.getD fg.2 0)
  (d, w32 (b + rotl32 f (md5S.getD i 0)), b, c)

/-- Little-endian decoding of `k` bytes into one `Nat`. -/
def leDecode : List Nat → Nat
  | [] => 0
  | b :: bs => b + 256 * leDecode bs

/-- Little-endian encoding of `n` into `k` bytes. -/
def leEncode : Nat → Nat → List Nat
  | 0, _ => []
  | k + 1, n => n % 256 :: leEncode k (n / 256)

/-- Process one 64-byte block into the running MD5 state. -/
def md5Block (st : Nat × Nat × Nat × Nat) (block : List Nat) :
    Nat × Nat × Nat × Nat :=
  let m := (toBatches 4 block).map leDecode
  let (a0, b0, c0, d0) := st
  let (a, b, c, d) := (List.range 64).foldl (md5Round m) (a0, b0, c0, d0)
  (w32 (a0 + a), w32 (b0 + b), w32 (c0 + c), w32 (d0 + d))

/-- MD5 padding: `0x80`, zeros to 56 mod 64, then the bit length in 8
little-endian bytes. -/
def md5Pad (msg : List Nat) : List Nat :=
  let z := (56 + 64 - (msg.length + 1) % 64) % 64
  msg ++ [0x80] ++ List.replicate z 0 ++ leEncode 8 (8 * msg.length)

/-- MD5 of a byte sequence, as the four final state words. -/
def md5Words (msg : List Nat) : Nat × Nat × Nat × Nat :=
  (toBatches 64 (md5Pad msg)).foldl md5Block
    (0x67452301, 0xefcdab89, 0x98badcfe, 0x10325476)

/-- Lowercase hex digit. -/
def hexDigit (n : Nat) : Char :=
  if n < 10 then Char.ofNat (48 + n) else Char.ofNat (87 + n)

/-- Two lowercase hex digits of a byte. -/
def byteHex (b : Nat) : List Char := [hexDigit (b / 16), hexDigit (b % 16)]

/-- UTF-8 encoding of one character (`str.encode()`). -/
def utf8Encode (c : Char) : List Nat :=
  let n := c.toNat
  if n < 0x80 then [n]
  else if n < 0x800 then
    [0xc0 ||| n / 64, 0x80 ||| (n &&& 63)]
  else if n < 0x10000 then
    [0xe0 ||| n / 4096, 0x80 ||| (n / 64 &&& 63), 0x80 ||| (n &&& 63)]
  else
    [0xf0 ||| n / 262144, 0x80 ||| (n / 4096 &&& 63),
     0x80 ||| (n / 64 &&& 63), 0x80 ||| (n &&& 63)]

/-- `hashlib.md5(s.encode()).hexdigest()`: 32 lowercase hex characters,
little-endian bytes of the four state words. -/
def md5Hex (s : String) : String :=
  let (a, b, c, d) := md5Words ((s.data.flatMap utf8Encode))
  ⟨(leEncode 4 a ++ leEncode 4 b ++ leEncode 4 c ++ leEncode 4 d).flatMap byteHex⟩

/-!
### Text chunker

`chunk_text` delegates to langchain's `RecursiveCharacterTextSplitter`
with `chunk_size=1000, chunk_overlap=100` and the library defaults:
separators `["\n\n", "\n", " ", ""]`, `keep_separator=True` (separators
are reattached to the front of the following piece), length function
`len`, `strip_whitespace=True`.  The library is external to the
repository, so the definitions below transcribe its `split_text` /
`_split_text` / `_split_text_with_regex` / `_merge_splits` algorithm.
Since `keep_separator` is true, `_merge_splits` receives `""` as the
join separator, so all `separator_len` terms are `0`.
-/

def chunkSize : Nat := 1000

def chunkOverlap : Nat := 100

/-- Worker for literal splitting on separator `h :: t` (the compiled
form of python `re.split` on an escaped pattern), with enough fuel to be
structural: `fuel ≥ length of the text` makes it exact. -/
def splitOnF (h : Char) (t : List Char) : Nat → List Char → List Char → List (List Char)
  | _, [], acc => [acc.reverse]
  | 0, l, acc => [acc.reverse ++ l]
  | fuel + 1, c :: rest, acc =>
    if List.isPrefixOf (h :: t) (c :: rest) then
      acc.reverse :: splitOnF h t fuel ((c :: rest).drop (t.length + 1)) []
    else
      splitOnF h t fuel rest (c :: acc)

/-- `re.split(sep, text)` for a non-empty literal separator:
the pieces of `text` between non-overlapping leftmost occurrences. -/
def splitOnChars (h : Char) (t : List Char) (text : List Char) : List (List Char) :=
  splitOnF h t text.length text []

/-- `_split_text_with_regex(text, separator, keep_separator=True)`:
for the empty separator, the single characters; otherwise the first
piece followed by the later pieces with the separator reattached in
front; empty strings are filtered out. -/
def splitWithSep (sep : List Char) (text : List Char) : List (List Char) :=
  match sep with
  | [] => (text.map fun c => [c]).filter (· ≠ [])
  | h :: t =>
    let splits :=
      match splitOnChars h t text with
      | [] => []
      | p :: ps => p :: ps.map fun q => (h :: t) ++ q
    splits.filter (· ≠ [])

/-- `re.search(re.escape(sep), text)` for a literal separator:
does `sep` occur as a contiguous subsequence of `text`? -/
def hasInfix (sep : List Char) : List Char → Bool
  | [] => sep.isEmpty
  | c :: rest => List.isPrefixOf sep (c :: rest) || hasInfix sep rest

/-- The separator-selection loop of `_split_text`: take the last
separator by default, but stop at the first one that is `""` (with no
remaining separators) or that occurs in the text (with the rest as the
new separator list). -/
def chooseSepAux (dflt : List Char) : List (List Char) → List Char →
    List Char × List (List Char)
  | [], _ => (dflt, [])
  | s :: rest, text =>
    if s = [] then ([], [])
    else if hasInfix s text then (s, rest)
    else chooseSepAux dflt rest text

/-- Separator selection for one `_split_text` level. -/
def chooseSep (seps : List (List Char)) (text : List Char) :
    List Char × List (List Char) :=
  chooseSepAux (seps.getLastD []) seps text

/-- `_join_docs(docs, "")` with `strip_whitespace=True`: join, strip,
and drop the chunk when nothing is left. -/
def joinDocs (docs : List (List Char)) : Option (List Char) :=
  let text := pyStrip docs.flatten
  if text = [] then none else some text

/-- The pop-from-front loop inside `_merge_splits`: shed leading pieces
while the running total exceeds the overlap, or while the next piece of
length `lenD` would still not fit.  (When the list is empty the total
is `0` under the invariant `total = sum of lengths`, so the loop guard
is false and python never indexes into the empty list.) -/
def popSplits (lenD : Nat) : List (List Char) → Nat → List (List Char) × Nat
  | [], total => ([], total)
  | c :: rest, total =>
    if chunkOverlap < total ∨ (chunkSize < total + lenD ∧ 0 < total) then
      popSplits lenD rest (total - c.length)
    else (c :: rest, total)

/-- State of the `_merge_splits` accumulation loop: emitted documents,
the current window of pieces, and the window's total length. -/
structure MergeSt where
  docs : List (List Char)
  cur : List (List Char)
  total : Nat

/-- One iteration of the `_merge_splits` loop on piece `d`: if `d` no
longer fits, flush the current window as a chunk and shrink it to the
overlap, then in every case append `d`. -/
def mergeStep (st : MergeSt) (d : List Char) : MergeSt :=
  let st1 :=
    if chunkSize < st.total + d.length ∧ st.cur ≠ [] then
      let ct := popSplits d.length st.cur st.total
      MergeSt.mk (st.docs ++ (joinDocs st.cur).toList) ct.1 ct.2
    else st
  MergeSt.mk st1.docs (st1.cur ++ [d]) (st1.total + d.length)

/-- `_merge_splits(splits, "")`: greedily pack pieces into chunks of at
most `chunk_size` characters, carrying about `chunk_overlap` characters
of trailing context over into each next chunk. -/
def mergeSplits (splits : List (List Char)) : List (List Char) :=
  let st := splits.foldl mergeStep (MergeSt.mk [] [] 0)
  st.docs ++ (joinDocs st.cur).toList

/-- The per-piece loop of `_split_text`: short pieces accumulate and get
merged; a piece at least `chunk_size` long first flushes the
accumulated good pieces, then is kept whole (no separators left) or
split recursively via `recur`. -/
def splitLoop (recur : List Char → List (List Char)) (noNew : Bool) :
    List (List Char) → List (List Char) → List (List Char)
  | [], goods => if goods ≠ [] then mergeSplits goods else []
  | s :: rest, goods =>
    if s.length < chunkSize then
      splitLoop recur noNew rest (goods ++ [s])
    else
      (if goods ≠ [] then mergeSplits goods else []) ++
      (if noNew then [s] else recur s) ++
      splitLoop recur noNew rest []

/-- `_split_text(text, separators)`.  The python recursion always
passes a strict suffix of the separator list, so fuel equal to the
length of the separator list makes this the exact function. -/
def splitTextRec : Nat → List (List Char) → List Char → List (List Char)
  | 0, _, text => [text]
  | fuel + 1, seps, text =>
    let sn := chooseSep seps text
    splitLoop (fun s => splitTextRec fuel sn.2 s) sn.2.isEmpty
      (splitWithSep sn.1 text) []

/-- The library's default separator hierarchy. -/
def defaultSeparators : List (List Char) := [['\n', '\n'], ['\n'], [' '], []]

/-- `DocumentProcessor.chunk_text` (document.py line 76):
`RecursiveCharacterTextSplitter(chunk_size=1000, chunk_overlap=100).split_text`. -/
def chunk_text (text : List Char) : List (List Char) :=
  splitTextRec defaultSeparators.length defaultSeparators text

/-! ### URL → temporary file path (`urllib.parse.urlparse(url).path`,
`os.path.basename`, space replacement, `os.path.join(".", ...)`) -/

/-- Does `l` end with `sfx`? (`str.endswith`). -/
def endsWithChars (sfx l : List Char) : Bool :=
  List.isPrefixOf sfx.reverse l.reverse

/-- A valid scheme body character for `urlparse`. -/
def isSchemeChar (c : Char) : Bool :=
  c.isAlphanum ∨ c = '+' ∨ c = '-' ∨ c = '.'

/-- `urllib.parse.urlparse(url).path`: strip the fragment, a wellformed
`scheme:`, a `//netloc`, the query, and trailing `;params` of the last
segment. -/
def urlPath (url : List Char) : List Char :=
  let noFrag := url.takeWhile (· ≠ '#')
  let afterScheme :=
    match noFrag.span (· ≠ ':') with
    | (pre, ':' :: rest) =>
      match pre with
      | [] => noFrag
      | c :: cs => if c.isAlpha ∧ cs.all isSchemeChar then rest else noFrag
    | _ => noFrag
  let afterNetloc :=
    match afterScheme with
    | '/' :: '/' :: rest => rest.dropWhile fun c => c ≠ '/' ∧ c ≠ '?'
    | _ => afterScheme
  let withParams := afterNetloc.takeWhile (· ≠ '?')
  let lastSeg := (withParams.reverse.takeWhile (· ≠ '/')).reverse
  if ';' ∈ lastSeg then
    withParams.take (withParams.length - lastSeg.length) ++
      lastSeg.takeWhile (· ≠ ';')
  else withParams

/-- The temporary file path `download_document` writes to:
`os.path.join(".", f"temp_{basename(path).replace(chr(32), chr(95))}")`. -/
def file_path_of (url : String) : List Char :=
  let base := ((urlPath url.data).reverse.takeWhile (· ≠ '/')).reverse
  "./temp_".data ++ base.map fun c => if c = ' ' then '_' else c

/-- The `file_path.lower().endswith(".pdf")` gate in `extract_text_from_pdf`. -/
def is_pdf_path (p : List Char) : Bool := endsWithChars ".pdf".data (pyLower p)

/-! ### Model of the processor, its state, and the remote world -/

/-- One record upserted to Pinecone:
`{"id": str(uuid.uuid4()), "values": embeddings[j], "metadata": {"text": chunk}}`.
`uuid.uuid4()` is modelled as a fresh-identifier supply threaded through
the processor state; embedding vectors are opaque tokens. -/
structure VectorRecord where
  id : Nat
  values : Nat
  text : List Char
  deriving DecidableEq, Repr

/-- One similarity match as `query_documents` returns it
(`{"text": ..., "score": ..., "id": ...}`); the score is opaque. -/
structure QMatch where
  text : List Char
  score : Nat
  id : String
  deriving DecidableEq, Repr

/-- The remote calls the program makes, recorded in order.  `chunked`
records that the (local) chunking step ran. -/
inductive Event where
  | download (url : String)
  | chunked (n : Nat)
  | createIndex (name : String)
  | embedDoc (batch : List (List Char))
  | upsert (name : String) (records : List VectorRecord)
  | embedQuery (text : String)
  | search (name : String) (vec : Nat) (topK : Nat)
  | generate (prompt : String)
  deriving DecidableEq, Repr

/-- Oracles for the remote services.  `.error e` means the underlying
call raises an exception rendered as `e`; `download .ok` means
`requests.get` succeeded and the file got written. -/
structure Env where
  download : String → Except String Unit
  fitzText : String → Except String (List Char)
  embedDoc : List (List Char) → Except String (List Nat)
  embedQuery : String → Except String (List Nat)
  listIndexes : List String
  createOk : String → Except String Unit
  upsertOk : String → Except String Unit
  search : String → Nat → Nat → Except String (List QMatch)
  generate : String → Except String String

/-- Mutable state of one `DocumentProcessor`: the session index-name
field, whether this call's temporary file currently exists on disk, and
the uuid supply. -/
structure PState where
  current_index_name : Option String
  tempExists : Bool
  nextId : Nat
  deriving DecidableEq, Repr

/-- The dictionary `process_and_store_document` returns; `text_length`
is only present in the success dictionary. -/
structure ProcessingResult where
  success : Bool
  message : String
  text_length : Option Nat
  chunks_processed : Nat
  index_name : Option String
  deriving DecidableEq, Repr

/-- The index name computed at document.py lines 136-138:
`"hackrx-doc-" + hashlib.md5(url.encode()).hexdigest()[:8]`. -/
def urlIndexName (url : String) : String :=
  "hackrx-doc-" ++ (md5Hex url).take 8

/-- `extract_text_from_pdf` (document.py line 58): only `.pdf` paths are
accepted; whitespace-only extractions collapse to the empty text. -/
def extract_text_from_pdf (env : Env) (url : String) : Except String (List Char) :=
  if is_pdf_path (file_path_of url) then
    match env.fitzText url with
    | .error e => .error e
    | .ok text => if pyStrip text = [] then .ok [] else .ok text
  else .error "Only PDF files are supported in this version."

/-- The record-building inner loop of `embed_and_store_chunks`
(document.py lines 120-126): one record per chunk, `values` taken from
the embedding at the chunk's position (an out-of-range position raises
IndexError, like `embeddings[j]`). -/
def buildRecords (nid : Nat) : List (List Char) → List Nat → Except String (List VectorRecord)
  | [], _ => .ok []
  | _ :: _, [] => .error "list index out of range"
  | c :: cs, v :: vs =>
    match buildRecords (nid + 1) cs vs with
    | .ok rs => .ok (VectorRecord.mk nid v c :: rs)
    | .error e => .error e

/-- The batch loop of `embed_and_store_chunks` (document.py lines
105-129): per batch, one embedding call and one upsert. -/
def storeBatches (env : Env) (name : String) :
    List (List (List Char)) → PState → List Event →
    Except String Unit × PState × List Event
  | [], s, tr => (.ok (), s, tr)
  | b :: bs, s, tr =>
    let tr := tr ++ [Event.embedDoc b]
    match env.embedDoc b with
    | .error e => (.error e, s, tr)
    | .ok embs =>
      match buildRecords s.nextId b embs with
      | .error e => (.error e, s, tr)
      | .ok recs =>
        let tr := tr ++ [Event.upsert name recs]
        let s := { s with nextId := s.nextId + b.length }
        match env.upsertOk name with
        | .error e => (.error e, s, tr)
        | .ok _ => storeBatches env name bs s tr

/-- `embed_and_store_chunks` (document.py line 98): `ensure_index_exists`
(create the index when absent, the readiness poll folded into the create
oracle), then the batch loop with `batch_size = 50`. -/
def embed_and_store_chunks (env : Env) (chunks : List (List Char)) (name : String)
    (s : PState) (tr : List Event) : Except String Unit × PState × List Event :=
  if name ∈ env.listIndexes then storeBatches env name (toBatches 50 chunks) s tr
  else
    let tr := tr ++ [Event.createIndex name]
    match env.createOk name with
    | .error e => (.error e, s, tr)
    | .ok _ => storeBatches env name (toBatches 50 chunks) s tr

/-- Everything inside the outer `try` of `process_and_store_document`
(document.py lines 134-171), including the inner `try/finally` whose
`finally` removes the temporary file once the download has created it. -/
def ingestBody (env : Env) (url : String) (s : PState) :
    Except String ProcessingResult × PState × List Event :=
  let iname := urlIndexName url
  let s := { s with current_index_name := some iname }
  match env.download url with
  | .error e => (.error e, s, [Event.download url])
  | .ok _ =>
    let s := { s with tempExists := true }
    let tr := [Event.download url]
    let inner : Except String ProcessingResult × PState × List Event :=
      match extract_text_from_pdf env url with
      | .error e => (.error e, s, tr)
      | .ok text =>
        if text = [] then
          (.ok (ProcessingResult.mk false "No text could be extracted from the PDF"
            none 0 (some iname)), s, tr)
        else
          let chunks := chunk_text text
          let tr := tr ++ [Event.chunked chunks.length]
          match embed_and_store_chunks env chunks iname s tr with
          | (.error e, s, tr) => (.error e, s, tr)
          | (.ok _, s, tr) =>
            (.ok (ProcessingResult.mk true "Document processed and stored successfully"
              (some text.length) chunks.length (some iname)), s, tr)
    (inner.1, { inner.2.1 with tempExists := false }, inner.2.2)

/-- `DocumentProcessor.process_and_store_document` (document.py line
131): the body with the outer `except Exception` converting any raise
into a failure dictionary carrying `current_index_name`. -/
def process_and_store_document (env : Env) (url : String) (s : PState) :
    ProcessingResult × PState × List Event :=
  match ingestBody env url s with
  | (.ok r, s, tr) => (r, s, tr)
  | (.error e, s, tr) =>
    (ProcessingResult.mk false ("Error processing document: " ++ e)
      none 0 s.current_index_name, s, tr)

/-- `index_name or self.current_index_name` followed by
`if not search_index_name` — python truthiness, so the empty string
falls through like `None`. -/
def resolveName (argName cur : Option String) : Option String :=
  let v := match argName with
    | some s => if s = "" then cur else some s
    | none => cur
  match v with
  | some s => if s = "" then none else some s
  | none => none

/-- `DocumentProcessor.query_documents` (document.py line 184): resolve
the target index, embed the query (`result['embedding'][0]`, IndexError
on an empty reply), search, copy the match fields; any exception is
caught and yields the empty list. -/
def query_documents (env : Env) (query_text : String) (top_k : Nat)
    (index_name : Option String) (s : PState) : List QMatch × List Event :=
  match resolveName index_name s.current_index_name with
  | none => ([], [])
  | some name =>
    let tr := [Event.embedQuery query_text]
    match env.embedQuery query_text with
    | .error _ => ([], tr)
    | .ok embs =>
      match embs with
      | [] => ([], tr)
      | v :: _ =>
        let tr := tr ++ [Event.search name v top_k]
        match env.search name v top_k with
        | .error _ => ([], tr)
        | .ok ms => (ms, tr)

/-! ### The API layer (`api/main.py`) -/

/-- An apostrophe, spliced into the string literals that contain one. -/
def apos : String := String.singleton (Char.ofNat 39)

/-- The fixed sentinel returned when no context chunks are available
(main.py line 33). -/
def noInfoAnswer : String :=
  "I couldn" ++ apos ++ "t find relevant information in the document to answer this question."

/-- The prompt template of `generate_answer_with_context`
(main.py lines 37-49). -/
def promptFor (context question : String) : String :=
  "You are an expert Q&A system. Your task is to answer the user" ++ apos ++
  "s question based *only* on the provided document context.\n" ++
  "Analyze the context below and provide a concise, factual answer to the question.\n" ++
  "If the answer cannot be found in the provided context, state \"The provided document does not contain information to answer this question.\" Do not use any external knowledge.\n" ++
  "\n[Document Context]\n" ++ context ++ "\n[/Document Context]\n" ++
  "\n[Question]\n" ++ question ++ "\n[/Question]\n\nAnswer:"

/-- `generate_answer_with_context` (main.py line 30): empty matches give
the fixed sentinel without any generation call; otherwise the joined
context goes into the prompt and a remote failure becomes an
error-describing answer string. -/
def generate_answer_with_context (env : Env) (question : String)
    (context_chunks : List QMatch) : String × List Event :=
  if context_chunks = [] then (noInfoAnswer, [])
  else
    let context := String.intercalate "\n\n" (context_chunks.map fun m => String.mk m.text)
    let prompt := promptFor context question
    match env.generate prompt with
    | .ok t => (String.mk (pyStrip t.data), [Event.generate prompt])
    | .error e => ("Error generating answer: " ++ e, [Event.generate prompt])

/-- The request body of `POST /hackrx/run` (api/models.py). -/
structure Query where
  documents : String
  questions : List String
  deriving DecidableEq, Repr

/-- The response body (api/models.py). -/
structure Response where
  answers : List String
  deriving DecidableEq, Repr

/-- The `HTTPException`s `run_hackrx` can raise. -/
inductive HTTPError where
  | unauthorized (detail : String)
  | badRequest (detail : String)
  | internal (detail : String)
  deriving DecidableEq, Repr

/-- `run_hackrx` (main.py line 59): bearer check, one ingest, then one
`query_documents` + `generate_answer_with_context` per question with
answers appended in order.  The callees catch their own exceptions (and
in this model are total), so the handler's inner `except` never fires. -/
def run_hackrx (env : Env) (apiKey credentials : String) (q : Query) (s : PState) :
    Except HTTPError Response × PState × List Event :=
  if credentials ≠ apiKey then
    (.error (.unauthorized "Invalid or missing API Key"), s, [])
  else
    let pst := process_and_store_document env q.documents s
    let pr := pst.1
    let s := pst.2.1
    if pr.success = false then
      (.error (.badRequest ("Failed to process document: " ++ pr.message)), s, pst.2.2)
    else
      let fin := q.questions.foldl
        (fun (acc : List String × List Event) question =>
          let qr := query_documents env question 5 pr.index_name s
          let ga := generate_answer_with_context env question qr.1
          (acc.1 ++ [ga.1], acc.2 ++ qr.2 ++ ga.2))
        ([], pst.2.2)
      (.ok (Response.mk fin.1), s, fin.2)

/-! ### The legacy standalone ingest script (`Document_Ingestion/document.py`) -/

/-- The constant index name of the standalone script (line 68). -/
def legacyIndexName : String := "hackrx-gemini-index"

/-- The `try` body of the standalone `process_and_store_document`
(Document_Ingestion/document.py lines 29-111).  The boolean tracks
whether the temporary file exists on exit: it is removed only on the
empty-extraction return (line 57) and after a fully successful run
(line 110) — there is no `finally`. -/
def legacyBody (env : Env) (url : String) (nid : Nat) :
    Except String Unit × Bool × List Event :=
  match env.download url with
  | .error e => (.error e, false, [Event.download url])
  | .ok _ =>
    let tr := [Event.download url]
    if is_pdf_path (file_path_of url) then
      match env.fitzText url with
      | .error e => (.error e, true, tr)
      | .ok text =>
        if pyStrip text = [] then (.ok (), false, tr)
        else
          let chunks := chunk_text text
          let tr := tr ++ [Event.chunked chunks.length]
          match embed_and_store_chunks env chunks legacyIndexName
              (PState.mk none true nid) tr with
          | (.error e, _, tr) => (.error e, true, tr)
          | (.ok _, _, tr) => (.ok (), false, tr)
    else (.error "Only PDF files are supported in this version.", true, tr)

/-- The standalone `process_and_store_document`: the `except Exception`
handler only prints, so the function always returns `None`; the pair
carries whether the temporary file is left behind, and the trace. -/
def legacy_process_and_store_document (env : Env) (url : String) (nid : Nat) :
    Bool × List Event :=
  match legacyBody env url nid with
  | (_, tempEx, tr) => (tempEx, tr)

/-! ### Derived views of traces used by the theorem statements -/

/-- The record batches of the upsert events of a trace, in order. -/
def upsertRecords : List Event → List (List VectorRecord)
  | [] => []
  | Event.upsert _ recs :: tr => recs :: upsertRecords tr
  | _ :: tr => upsertRecords tr

/-- Every index name targeted by a create, upsert or search event. -/
def indexEventTargets : List Event → List String
  | [] => []
  | Event.createIndex n :: tr => n :: indexEventTargets tr
  | Event.upsert n _ :: tr => n :: indexEventTargets tr
  | Event.search n _ _ :: tr => n :: indexEventTargets tr
  | _ :: tr => indexEventTargets tr

/-- The embedding the service returns for a batch (on the success path). -/
def vsOf (env : Env) (b : List (List Char)) : List Nat :=
  match env.embedDoc b with
  | .ok vs => vs
  | .error _ => []

/-- The records `buildRecords` produces on the success path: ids counting
up from `nid`, values and texts paired positionally. -/
def mkRecs : Nat → List (List Char) → List Nat → List VectorRecord
  | _, [], _ => []
  | _, _ :: _, [] => []
  | nid, c :: cs, v :: vs => VectorRecord.mk nid v c :: mkRecs (nid + 1) cs vs

/-- The record batches a fully successful batch loop upserts. -/
def expectedRecords (env : Env) : Nat → List (List (List Char)) → List (List VectorRecord)
  | _, [] => []
  | nid, b :: bs => mkRecs nid b (vsOf env b) :: expectedRecords env (nid + b.length) bs

/-- The trace a fully successful batch loop appends: per batch one
embedding call followed by one upsert of the positionally built records. -/
def expectedBatchEvents (env : Env) (name : String) :
    Nat → List (List (List Char)) → List Event
  | _, [] => []
  | nid, b :: bs =>
    Event.embedDoc b :: Event.upsert name (mkRecs nid b (vsOf env b)) ::
      expectedBatchEvents env name (nid + b.length) bs

/-! ### Concrete environments used by witnesses and counterexamples -/

/-- An environment in which every remote call succeeds: the document
extracts to `"hello world"`, embeddings are positional tokens, the
search returns one match, generation returns a fixed answer. -/
def okEnv : Env where
  download := fun _ => .ok ()
  fitzText := fun _ => .ok "hello world".data
  embedDoc := fun b => .ok (List.range b.length)
  embedQuery := fun _ => .ok [7]
  listIndexes := []
  createOk := fun _ => .ok ()
  upsertOk := fun _ => .ok ()
  search := fun _ _ _ => .ok [QMatch.mk "hello".data 3 "m1"]
  generate := fun _ => .ok "An answer."

/-- `okEnv` with a failing HTTP download. -/
def failDownloadEnv : Env :=
  { okEnv with download := fun _ => .error "boom" }

/-- `okEnv` with a PDF that extracts to whitespace only. -/
def emptyPdfEnv : Env :=
  { okEnv with fitzText := fun _ => .ok "  \n ".data }

/-- A fresh processor state (`current_index_name = None`, no temporary
file on disk, uuid supply at zero). -/
def s0 : PState := PState.mk none false 0

/-- The answer the handler computes for one question, given the index
name of the ingest result and the post-ingest state (the body of the
per-question loop in `run_hackrx`, main.py lines 82-91). -/
def answer_for (env : Env) (iname : Option String) (s : PState) (question : String) : String :=
  (generate_answer_with_context env question
    (query_documents env question 5 iname s).1).1

/-! ## Lemmas: state threading through the batch loop and the ingest body -/

theorem storeBatches_keeps_current_index_name (env : Env) (name : String) :
    ∀ bs s tr, ((storeBatches env name bs s tr).2.1).current_index_name = s.current_index_name := by
  intro bs
  induction bs with
  | nil => intro s tr; rfl
  | cons b bs ih =>
    intro s tr
    rcases hE : env.embedDoc b with e | embs
    · simp [storeBatches, hE]
    · rcases hB : buildRecords s.nextId b embs with e | recs
      · simp [storeBatches, hE, hB]
      · rcases hU : env.upsertOk name with e | u
        · simp [storeBatches, hE, hB, hU]
        · simp [storeBatches, hE, hB, hU, ih]

theorem storeBatches_keeps_tempExists (env : Env) (name : String) :
    ∀ bs s tr, ((storeBatches env name bs s tr).2.1).tempExists = s.tempExists := by
  intro bs
  induction bs with
  | nil => intro s tr; rfl
  | cons b bs ih =>
    intro s tr
    rcases hE : env.embedDoc b with e | embs
    · simp [storeBatches, hE]
    · rcases hB : buildRecords s.nextId b embs with e | recs
      · simp [storeBatches, hE, hB]
      · rcases hU : env.upsertOk name with e | u
        · simp [storeBatches, hE, hB, hU]
        · simp [storeBatches, hE, hB, hU, ih]

theorem embed_and_store_keeps_current_index_name (env : Env) (chunks : List (List Char))
    (name : String) (s : PState) (tr : List Event) :
    ((embed_and_store_chunks env chunks name s tr).2.1).current_index_name = s.current_index_name := by
  unfold embed_and_store_chunks
  by_cases h : name ∈ env.listIndexes
  · simp only [if_pos h]
    exact storeBatches_keeps_current_index_name env name _ s _
  · simp only [if_neg h]
    cases env.createOk name with
    | error e => rfl
    | ok u => exact storeBatches_keeps_current_index_name env name _ s _

theorem embed_and_store_keeps_tempExists (env : Env) (chunks : List (List Char))
    (name : String) (s : PState) (tr : List Event) :
    ((embed_and_store_chunks env chunks name s tr).2.1).tempExists = s.tempExists := by
  unfold embed_and_store_chunks
  by_cases h : name ∈ env.listIndexes
  · simp only [if_pos h]
    exact storeBatches_keeps_tempExists env name _ s _
  · simp only [if_neg h]
    cases env.createOk name with
    | error e => rfl
    | ok u => exact storeBatches_keeps_tempExists env name _ s _

theorem ingestBody_current_index_name (env : Env) (url : String) (s : PState) :
    ((ingestBody env url s).2.1).current_index_name = some (urlIndexName url) := by
  unfold ingestBody
  cases env.download url with
  | error e => rfl
  | ok u =>
    cases extract_text_from_pdf env url with
    | error e => rfl
    | ok text =>
      by_cases ht : text = []
      · simp only [if_pos ht]
      · simp only [if_neg ht]
        rcases hE : embed_and_store_chunks env (chunk_text text) (urlIndexName url)
            { s with current_index_name := some (urlIndexName url), tempExists := true }
            [Event.download url, Event.chunked (chunk_text text).length] with ⟨r, s2, tr2⟩
        have hc := embed_and_store_keeps_current_index_name env (chunk_text text)
          (urlIndexName url)
          { s with current_index_name := some (urlIndexName url), tempExists := true }
          [Event.download url, Event.chunked (chunk_text text).length]
        rw [hE] at hc
        cases r <;> simpa [hE] using hc

theorem process_and_store_document_state (env : Env) (url : String) (s : PState) :
    (process_and_store_document env url s).2.1 = (ingestBody env url s).2.1 := by
  unfold process_and_store_document
  rcases h : ingestBody env url s with ⟨r, s2, tr2⟩
  cases r <;> simp [h]

theorem process_and_store_document_trace (env : Env) (url : String) (s : PState) :
    (process_and_store_document env url s).2.2 = (ingestBody env url s).2.2 := by
  unfold process_and_store_document
  rcases h : ingestBody env url s with ⟨r, s2, tr2⟩
  cases r <;> simp [h]

/-! ## C8 -/

/-- C8: for every question, the answer-synthesis operation on an empty
match sequence returns the fixed no-information sentinel and performs no
generation call (the event trace is empty). -/
theorem generate_answer_empty_matches_sentinel (env : Env) (question : String) :
    generate_answer_with_context env question [] = (noInfoAnswer, []) := by
  rfl

/-! ## C4 -/

/-- C4: whenever the body of the ingest operation raises (any step:
download, extraction, index creation, embedding, upsert), the operation
returns a failure `ProcessingResult` whose message describes the error,
rather than propagating the exception (the model is total by type). -/
theorem process_and_store_document_catches (env : Env) (url : String) (s : PState)
    (e : String) (h : (ingestBody env url s).1 = .error e) :
    (process_and_store_document env url s).1 =
      ProcessingResult.mk false ("Error processing document: " ++ e) none 0
        (some (urlIndexName url)) := by
  have hc := ingestBody_current_index_name env url s
  unfold process_and_store_document
  rcases hB : ingestBody env url s with ⟨r, s2, tr2⟩
  rw [hB] at h hc
  simp only at h hc
  subst h
  simp [hc]

/-- C4 witness: a failing download is converted into the failure result. -/
theorem process_and_store_document_catches_witness :
    (ingestBody failDownloadEnv "http://h/a.pdf" s0).1 = .error "boom" ∧
      (process_and_store_document failDownloadEnv "http://h/a.pdf" s0).1 =
        ProcessingResult.mk false ("Error processing document: " ++ "boom") none 0
          (some (urlIndexName "http://h/a.pdf")) :=
  ⟨rfl, process_and_store_document_catches failDownloadEnv "http://h/a.pdf" s0 "boom" rfl⟩

/-! ## C2 -/

/-- C2 (amended): in `DocumentProcessor.process_and_store_document`,
whenever the download step succeeds (the temporary file was written),
the temporary file no longer exists when the call returns, on every
exit path: success, empty extraction, unsupported format, and any
exception. -/
theorem process_and_store_document_removes_temp (env : Env) (url : String) (s : PState)
    (h : env.download url = .ok ()) :
    (process_and_store_document env url s).2.1.tempExists = false := by
  rw [process_and_store_document_state]
  unfold ingestBody
  rw [h]

/-- C2 witness: a concrete successful ingest ends with the temporary
file removed. -/
theorem process_and_store_document_removes_temp_witness :
    okEnv.download "http://h/a.pdf" = .ok () ∧
      (process_and_store_document okEnv "http://h/a.pdf" s0).2.1.tempExists = false :=
  ⟨rfl, process_and_store_document_removes_temp okEnv "http://h/a.pdf" s0 rfl⟩

/-- C2 counterexample: the standalone script's ingest
(`Document_Ingestion/document.py`) downloads the temporary file and then
raises on a non-PDF URL; since its cleanup is only on the success and
empty-extraction paths (no `finally`), the temporary file still exists
when the call returns. -/
theorem legacy_ingest_leaks_temp_file :
    (legacy_process_and_store_document okEnv "http://h/notes.txt" 0).1 = true := by
  decide

/-! ## C5 -/

/-- C5: a PDF URL whose extraction yields empty or whitespace-only text
makes the ingest operation return, without raising, the failure result
carrying the computed index name and a chunk count of zero, with the
download as the only performed effect — no chunking, embedding, index
creation or upsert happens. -/
theorem process_and_store_document_empty_extraction (env : Env) (url : String) (s : PState)
    (hdl : env.download url = .ok ())
    (hpdf : is_pdf_path (file_path_of url) = true)
    (raw : List Char) (hfz : env.fitzText url = .ok raw) (hempty : pyStrip raw = []) :
    process_and_store_document env url s =
      (ProcessingResult.mk false "No text could be extracted from the PDF" none 0
        (some (urlIndexName url)),
       PState.mk (some (urlIndexName url)) false s.nextId,
       [Event.download url]) := by
  have hex : extract_text_from_pdf env url = .ok [] := by
    unfold extract_text_from_pdf
    rw [hpdf, hfz]
    simp [hempty]
  unfold process_and_store_document ingestBody
  rw [hdl, hex]
  simp

/-- C5 witness: a whitespace-only PDF produces exactly the zero-chunk
failure result and only the download event. -/
theorem process_and_store_document_empty_extraction_witness :
    emptyPdfEnv.download "http://h/a.pdf" = .ok () ∧
      is_pdf_path (file_path_of "http://h/a.pdf") = true ∧
      emptyPdfEnv.fitzText "http://h/a.pdf" = .ok "  \n ".data ∧
      pyStrip "  \n ".data = [] ∧
      process_and_store_document emptyPdfEnv "http://h/a.pdf" s0 =
        (ProcessingResult.mk false "No text could be extracted from the PDF" none 0
          (some (urlIndexName "http://h/a.pdf")),
         PState.mk (some (urlIndexName "http://h/a.pdf")) false 0,
         [Event.download "http://h/a.pdf"]) :=
  ⟨rfl, by decide, rfl, by decide,
    process_and_store_document_empty_extraction emptyPdfEnv "http://h/a.pdf" s0
      rfl (by decide) "  \n ".data rfl (by decide)⟩

/-! ## C6 -/

/-- C6: `query_documents` fails closed.  With no resolvable index name
(no explicit argument, no session name — python truthiness, so the
empty string counts as unresolvable) it returns the empty sequence with
an empty call trace; and any error while embedding (including an empty
embedding reply, which raises IndexError) or searching also yields the
empty sequence instead of propagating. -/
theorem query_documents_fail_closed (env : Env) (qt : String) (k : Nat)
    (argName : Option String) (s : PState)
    (h : resolveName argName s.current_index_name = none ∨
      (∃ e, env.embedQuery qt = .error e) ∨
      env.embedQuery qt = .ok [] ∨
      (∃ n v vs e, resolveName argName s.current_index_name = some n ∧
        env.embedQuery qt = .ok (v :: vs) ∧ env.search n v k = .error e)) :
    (query_documents env qt k argName s).1 = [] ∧
    (resolveName argName s.current_index_name = none →
      query_documents env qt k argName s = ([], [])) := by
  refine ⟨?_, fun hR0 => by simp [query_documents, hR0]⟩
  rcases hR : resolveName argName s.current_index_name with _ | n
  · simp [query_documents, hR]
  · rcases hQ : env.embedQuery qt with e | embs
    · simp [query_documents, hR, hQ]
    · rcases embs with _ | ⟨v, vs⟩
      · simp [query_documents, hR, hQ]
      · rcases h with hR0 | ⟨e, hE⟩ | hE0 | ⟨n', v', vs', e, hR', hQ', hS⟩
        · rw [hR0] at hR; cases hR
        · rw [hE] at hQ; cases hQ
        · rw [hE0] at hQ; simp at hQ
        · rw [hR'] at hR
          obtain rfl : n' = n := Option.some.inj hR
          rw [hQ'] at hQ
          obtain ⟨rfl, rfl⟩ : v' = v ∧ vs' = vs := by simpa using hQ
          simp [query_documents, hR', hQ', hS]

/-- C6 witness: a fresh processor with no session index name and no
explicit argument returns the empty sequence and makes no remote call. -/
theorem query_documents_fail_closed_witness :
    (resolveName none s0.current_index_name = none) ∧
      (query_documents okEnv "q" 5 none s0).1 = [] ∧
      (resolveName none s0.current_index_name = none →
        query_documents okEnv "q" 5 none s0 = ([], [])) :=
  ⟨rfl, query_documents_fail_closed okEnv "q" 5 none s0 (Or.inl rfl)⟩

/-! ## C10 and C3 -/

theorem urlIndexName_ne_empty (url : String) : urlIndexName url ≠ "" := by
  intro h
  have hl : (urlIndexName url).length = 0 := by rw [h]; rfl
  rw [urlIndexName, String.length_append] at hl
  have h11 : ("hackrx-doc-" : String).length = 11 := rfl
  omega

theorem indexEventTargets_append (a b : List Event) :
    indexEventTargets (a ++ b) = indexEventTargets a ++ indexEventTargets b := by
  induction a with
  | nil => rfl
  | cons e tl ih => cases e <;> simp [indexEventTargets, ih]

theorem storeBatches_targets (env : Env) (name : String) :
    ∀ bs s tr n, n ∈ indexEventTargets (storeBatches env name bs s tr).2.2 →
      n ∈ indexEventTargets tr ∨ n = name := by
  intro bs
  induction bs with
  | nil => intro s tr n hn; exact Or.inl hn
  | cons b bs ih =>
    intro s tr n hn
    rcases hE : env.embedDoc b with e | embs
    · rw [storeBatches] at hn
      simp only [hE] at hn
      rw [indexEventTargets_append] at hn
      rcases List.mem_append.mp hn with h1 | h2
      · exact Or.inl h1
      · simp [indexEventTargets] at h2
    · rcases hB : buildRecords s.nextId b embs with e | recs
      · rw [storeBatches] at hn
        simp only [hE, hB] at hn
        rw [indexEventTargets_append] at hn
        rcases List.mem_append.mp hn with h1 | h2
        · exact Or.inl h1
        · simp [indexEventTargets] at h2
      · rcases hU : env.upsertOk name with e | u
        · rw [storeBatches] at hn
          simp only [hE, hB, hU] at hn
          rw [indexEventTargets_append, indexEventTargets_append] at hn
          rcases List.mem_append.mp hn with h1 | h2
          · rcases List.mem_append.mp h1 with h3 | h4
            · exact Or.inl h3
            · simp [indexEventTargets] at h4
          · simp [indexEventTargets] at h2
            exact Or.inr h2
        · rw [storeBatches] at hn
          simp only [hE, hB, hU] at hn
          rcases ih _ _ _ hn with h1 | h2
          · rw [indexEventTargets_append, indexEventTargets_append] at h1
            rcases List.mem_append.mp h1 with h3 | h4
            · rcases List.mem_append.mp h3 with h5 | h6
              · exact Or.inl h5
              · simp [indexEventTargets] at h6
            · simp [indexEventTargets] at h4
              exact Or.inr h4
          · exact Or.inr h2

theorem embed_and_store_targets (env : Env) (chunks : List (List Char))
    (name : String) (s : PState) (tr : List Event) :
    ∀ n ∈ indexEventTargets (embed_and_store_chunks env chunks name s tr).2.2,
      n ∈ indexEventTargets tr ∨ n = name := by
  intro n hn
  unfold embed_and_store_chunks at hn
  by_cases h : name ∈ env.listIndexes
  · rw [if_pos h] at hn
    exact storeBatches_targets env name _ _ _ n hn
  · rw [if_neg h] at hn
    rcases hC : env.createOk name with e | u
    · simp only [hC] at hn
      rw [indexEventTargets_append] at hn
      simpa [indexEventTargets] using (List.mem_append.mp hn)
    · simp only [hC] at hn
      rcases storeBatches_targets env name _ _ _ n hn with h1 | h2
      · rw [indexEventTargets_append] at h1
        rcases List.mem_append.mp h1 with h3 | h4
        · exact Or.inl h3
        · simp [indexEventTargets] at h4
          exact Or.inr h4
      · exact Or.inr h2

theorem ingestBody_targets (env : Env) (url : String) (s : PState) :
    ∀ n ∈ indexEventTargets (ingestBody env url s).2.2, n = urlIndexName url := by
  intro n hn
  unfold ingestBody at hn
  rcases hD : env.download url with e | u
  · simp only [hD] at hn
    simp [indexEventTargets] at hn
  · simp only [hD] at hn
    rcases hX : extract_text_from_pdf env url with e | text
    · simp only [hX] at hn
      simp [indexEventTargets] at hn
    · simp only [hX] at hn
      by_cases ht : text = []
      · rw [if_pos ht] at hn
        simp [indexEventTargets] at hn
      · rw [if_neg ht] at hn
        rcases hE : embed_and_store_chunks env (chunk_text text) (urlIndexName url)
            { s with current_index_name := some (urlIndexName url), tempExists := true }
            [Event.download url, Event.chunked (chunk_text text).length] with ⟨r, s2, tr2⟩
        have htg := embed_and_store_targets env (chunk_text text) (urlIndexName url)
          { s with current_index_name := some (urlIndexName url), tempExists := true }
          [Event.download url, Event.chunked (chunk_text text).length]
        rw [hE] at htg
        have hn2 : n ∈ indexEventTargets tr2 := by
          cases r <;> simpa [hE] using hn
        rcases htg n hn2 with h1 | h2
        · simp [indexEventTargets] at h1
        · exact h2

/-- C10: every ingest call — returning success or failure — leaves the
session field `current_index_name` equal to the index name computed
from the URL; a query that omits an explicit index name resolves to
exactly that stored name, and any search it performs targets it. -/
theorem ingest_sets_session_index_name (env : Env) (url : String) (s : PState)
    (qt : String) (k : Nat) :
    (process_and_store_document env url s).2.1.current_index_name =
      some (urlIndexName url) ∧
    resolveName none (process_and_store_document env url s).2.1.current_index_name =
      some (urlIndexName url) ∧
    ∀ n ∈ indexEventTargets
        (query_documents env qt k none (process_and_store_document env url s).2.1).2,
      n = urlIndexName url := by
  have hcur : (process_and_store_document env url s).2.1.current_index_name =
      some (urlIndexName url) := by
    rw [process_and_store_document_state]
    exact ingestBody_current_index_name env url s
  have hres : resolveName none (some (urlIndexName url)) = some (urlIndexName url) := by
    simp [resolveName, urlIndexName_ne_empty url]
  refine ⟨hcur, by rw [hcur]; exact hres, ?_⟩
  intro n hn
  unfold query_documents at hn
  rw [hcur, hres] at hn
  rcases hQ : env.embedQuery qt with e | embs
  · simp only [hQ] at hn
    simp [indexEventTargets] at hn
  · simp only [hQ] at hn
    rcases embs with _ | ⟨v, vs⟩
    · simp [indexEventTargets] at hn
    · rcases hS : env.search (urlIndexName url) v k with e | ms <;>
        · simp only [hS] at hn
          simp [indexEventTargets] at hn
          exact hn

/-- C10 witness: a concrete ingest followed by an argument-free query. -/
theorem ingest_sets_session_index_name_witness :
    (process_and_store_document okEnv "http://h/a.pdf" s0).2.1.current_index_name =
      some (urlIndexName "http://h/a.pdf") ∧
    resolveName none
        (process_and_store_document okEnv "http://h/a.pdf" s0).2.1.current_index_name =
      some (urlIndexName "http://h/a.pdf") ∧
    ∀ n ∈ indexEventTargets
        (query_documents okEnv "q" 5 none
          (process_and_store_document okEnv "http://h/a.pdf" s0).2.1).2,
      n = urlIndexName "http://h/a.pdf" :=
  ingest_sets_session_index_name okEnv "http://h/a.pdf" s0 "q" 5

/-- A successful ingest body reports the hash-derived index name. -/
theorem ingestBody_ok_index_name (env : Env) (url : String) (s : PState)
    (r : ProcessingResult) (h : (ingestBody env url s).1 = .ok r) :
    r.index_name = some (urlIndexName url) := by
  unfold ingestBody at h
  rcases hD : env.download url with e | u
  · rw [hD] at h; simp at h
  · simp only [hD] at h
    rcases hX : extract_text_from_pdf env url with e | text
    · simp only [hX] at h; simp at h
    · simp only [hX, List.singleton_append] at h
      by_cases ht : text = []
      · rw [if_pos ht] at h
        simp only at h
        obtain rfl := Except.ok.inj h
        rfl
      · rw [if_neg ht] at h
        rcases hE : embed_and_store_chunks env (chunk_text text) (urlIndexName url)
            { s with current_index_name := some (urlIndexName url), tempExists := true }
            [Event.download url, Event.chunked (chunk_text text).length] with ⟨re, se, tre⟩
        simp only [hE] at h
        rcases re with e2 | u2
        · simp at h
        · simp only at h
          obtain rfl := Except.ok.inj h
          rfl

/-- C3 (amended): the DocumentProcessor ingest — the entry point the API
serves — uses the pure hash-derived name
`"hackrx-doc-" ++ md5(url)[:8]`: whatever the environment and prior
state, the returned result names it and every index operation of the
call targets it, so re-ingesting the same URL targets the same index.
The standalone script entry point instead uses the fixed constant name
`"hackrx-gemini-index"`, not derived from the URL's hash (see the
counterexample). -/
theorem ingest_index_name_deterministic (env : Env) (url : String) (s : PState) :
    (process_and_store_document env url s).1.index_name = some (urlIndexName url) ∧
    ∀ n ∈ indexEventTargets (process_and_store_document env url s).2.2,
      n = urlIndexName url := by
  constructor
  · have hc := ingestBody_current_index_name env url s
    unfold process_and_store_document
    rcases hB : ingestBody env url s with ⟨r, s2, tr2⟩
    rw [hB] at hc
    simp only at hc
    rcases r with e | r
    · simpa using hc
    · have hr := ingestBody_ok_index_name env url s r (by rw [hB])
      simpa using hr
  · intro n hn
    rw [process_and_store_document_trace] at hn
    exact ingestBody_targets env url s n hn

/-- C3 witness: the theorem applied at a concrete environment and URL. -/
theorem ingest_index_name_deterministic_witness :
    (process_and_store_document okEnv "http://h/a.pdf" s0).1.index_name =
      some (urlIndexName "http://h/a.pdf") ∧
    ∀ n ∈ indexEventTargets (process_and_store_document okEnv "http://h/a.pdf" s0).2.2,
      n = urlIndexName "http://h/a.pdf" :=
  ingest_index_name_deterministic okEnv "http://h/a.pdf" s0

set_option maxRecDepth 100000 in
/-- C3 counterexample: the standalone ingest entry point
(`Document_Ingestion/document.py` line 68) targets the fixed index
`"hackrx-gemini-index"` for its create and upsert calls, and that name
is not the hash-derived index name of the URL it ingests. -/
theorem legacy_index_name_not_hash_derived :
    indexEventTargets (legacy_process_and_store_document okEnv "http://h/a.pdf" 0).2 =
      [legacyIndexName, legacyIndexName] ∧
    legacyIndexName ≠ urlIndexName "http://h/a.pdf" := by
  constructor
  · decide
  · decide

/-! ## C1 -/

theorem run_hackrx_fold (env : Env) (iname : Option String) (s : PState) :
    ∀ (qs : List String) (acc : List String) (tr : List Event),
      (qs.foldl (fun (acc : List String × List Event) question =>
          (acc.1 ++ [(generate_answer_with_context env question
              (query_documents env question 5 iname s).1).1],
           acc.2 ++ (query_documents env question 5 iname s).2 ++
             (generate_answer_with_context env question
               (query_documents env question 5 iname s).1).2)) (acc, tr)).1 =
        acc ++ qs.map (answer_for env iname s) := by
  intro qs
  induction qs with
  | nil => intro acc tr; simp
  | cons x xs ih =>
    intro acc tr
    rw [List.foldl_cons, List.map_cons]
    rw [ih]
    simp [answer_for]

/-- C1: an authenticated request whose ingest succeeds receives a 200
response whose answer list is exactly the per-question answer of each
question, in the same order — hence exactly `n` answers for `n`
questions.  A failure while answering one question surfaces inside
`answer_for` as an error-describing string for that slot (the callees
catch their own exceptions), never as a missing entry. -/
theorem run_hackrx_answers_one_per_question (env : Env) (key : String)
    (q : Query) (s : PState)
    (hs : (process_and_store_document env q.documents s).1.success = true) :
    (run_hackrx env key key q s).1 =
      .ok (Response.mk (q.questions.map (answer_for env
        (process_and_store_document env q.documents s).1.index_name
        (process_and_store_document env q.documents s).2.1))) ∧
    ∀ resp, (run_hackrx env key key q s).1 = .ok resp →
      resp.answers.length = q.questions.length := by
  have hmain : (run_hackrx env key key q s).1 =
      .ok (Response.mk (q.questions.map (answer_for env
        (process_and_store_document env q.documents s).1.index_name
        (process_and_store_document env q.documents s).2.1))) := by
    rcases hP : process_and_store_document env q.documents s with ⟨pr, s2, tr2⟩
    rw [hP] at hs
    simp only at hs
    unfold run_hackrx
    rw [if_neg (fun hh : key ≠ key => hh rfl)]
    simp only [hP]
    rw [if_neg (by simp [hs] : ¬pr.success = false)]
    exact congrArg (fun l => Except.ok (Response.mk l))
      (run_hackrx_fold env pr.index_name s2 q.questions [] tr2)
  refine ⟨hmain, fun resp h => ?_⟩
  rw [hmain] at h
  obtain rfl := (Except.ok.inj h).symm
  simp

/-- C1 witness: a concrete authenticated two-question request against a
successfully ingested document yields exactly two answers in order. -/
theorem run_hackrx_answers_one_per_question_witness :
    (process_and_store_document okEnv
        (Query.mk "http://h/a.pdf" ["q1", "q2"]).documents s0).1.success = true ∧
    ((run_hackrx okEnv "k" "k" (Query.mk "http://h/a.pdf" ["q1", "q2"]) s0).1 =
      .ok (Response.mk ((Query.mk "http://h/a.pdf" ["q1", "q2"]).questions.map
        (answer_for okEnv
          (process_and_store_document okEnv
            (Query.mk "http://h/a.pdf" ["q1", "q2"]).documents s0).1.index_name
          (process_and_store_document okEnv
            (Query.mk "http://h/a.pdf" ["q1", "q2"]).documents s0).2.1))) ∧
     ∀ resp, (run_hackrx okEnv "k" "k" (Query.mk "http://h/a.pdf" ["q1", "q2"]) s0).1 =
        .ok resp →
      resp.answers.length = (Query.mk "http://h/a.pdf" ["q1", "q2"]).questions.length) :=
  ⟨by decide,
    run_hackrx_answers_one_per_question okEnv "k" (Query.mk "http://h/a.pdf" ["q1", "q2"])
      s0 (by decide)⟩

/-! ## C7 -/

theorem range'_split (a m n : Nat) :
    List.range' a (m + n) = List.range' a m ++ List.range' (a + m) n := by
  induction m generalizing a with
  | zero => simp
  | succ m ih =>
    have h1 : m + 1 + n = (m + n) + 1 := by omega
    rw [h1, List.range'_succ, List.range'_succ, ih, List.cons_append]
    have h2 : a + 1 + m = a + (m + 1) := by omega
    rw [h2]

theorem toBatchesF_flatten {α : Type} (n : Nat) (hn : n ≠ 0) :
    ∀ (fuel : Nat) (l : List α), l.length ≤ fuel → (toBatchesF n fuel l).flatten = l := by
  intro fuel
  induction fuel with
  | zero =>
    intro l hl
    have : l = [] := List.length_eq_zero.mp (Nat.le_zero.mp hl)
    subst this
    rfl
  | succ fuel ih =>
    intro l hl
    rcases l with _ | ⟨x, xs⟩
    · rfl
    · rw [toBatchesF, if_neg hn]
      rw [List.flatten_cons]
      rw [ih ((x :: xs).drop n)
        (by simp only [List.length_drop, List.length_cons] at hl ⊢; omega)]
      exact List.take_append_drop n (x :: xs)

theorem toBatches_flatten {α : Type} (n : Nat) (hn : n ≠ 0) (l : List α) :
    (toBatches n l).flatten = l :=
  toBatchesF_flatten n hn l.length l (Nat.le_refl _)

theorem toBatchesF_mem_length {α : Type} (n : Nat) (hn : n ≠ 0) :
    ∀ (fuel : Nat) (l : List α) (b : List α), l.length ≤ fuel →
      b ∈ toBatchesF n fuel l → b.length ≤ n := by
  intro fuel
  induction fuel with
  | zero =>
    intro l b hl hb
    have : l = [] := List.length_eq_zero.mp (Nat.le_zero.mp hl)
    subst this
    simp [toBatchesF] at hb
  | succ fuel ih =>
    intro l b hl hb
    rcases l with _ | ⟨x, xs⟩
    · simp [toBatchesF] at hb
    · rw [toBatchesF, if_neg hn] at hb
      rcases List.mem_cons.mp hb with h1 | h2
      · subst h1
        simp [List.length_take]
      · exact ih ((x :: xs).drop n) b
          (by simp only [List.length_drop, List.length_cons] at hl ⊢; omega) h2

theorem toBatches_mem_length {α : Type} (n : Nat) (hn : n ≠ 0) (l : List α)
    (b : List α) (hb : b ∈ toBatches n l) : b.length ≤ n :=
  toBatchesF_mem_length n hn l.length l b (Nat.le_refl _) hb

theorem buildRecords_eq (nid : Nat) :
    ∀ (b : List (List Char)) (vs : List Nat), b.length ≤ vs.length →
      buildRecords nid b vs = .ok (mkRecs nid b vs) := by
  intro b
  induction b generalizing nid with
  | nil => intro vs h; rfl
  | cons c cs ih =>
    intro vs h
    rcases vs with _ | ⟨v, vs⟩
    · simp at h
    · rw [buildRecords, ih (nid + 1) vs (by simpa using h)]
      rfl

theorem mkRecs_map_text : ∀ (nid : Nat) (b : List (List Char)) (vs : List Nat),
    b.length ≤ vs.length → (mkRecs nid b vs).map VectorRecord.text = b := by
  intro nid b
  induction b generalizing nid with
  | nil => intro vs h; rfl
  | cons c cs ih =>
    intro vs h
    rcases vs with _ | ⟨v, vs⟩
    · simp at h
    · rw [mkRecs, List.map_cons, ih (nid + 1) vs (by simpa using h)]

theorem mkRecs_map_values : ∀ (nid : Nat) (b : List (List Char)) (vs : List Nat),
    vs.length = b.length → (mkRecs nid b vs).map VectorRecord.values = vs := by
  intro nid b
  induction b generalizing nid with
  | nil =>
    intro vs h
    rcases vs with _ | ⟨v, vs⟩
    · rfl
    · simp at h
  | cons c cs ih =>
    intro vs h
    rcases vs with _ | ⟨v, vs⟩
    · simp at h
    · rw [mkRecs, List.map_cons, ih (nid + 1) vs (by simpa using h)]

theorem mkRecs_map_id : ∀ (nid : Nat) (b : List (List Char)) (vs : List Nat),
    b.length ≤ vs.length →
    (mkRecs nid b vs).map VectorRecord.id = List.range' nid b.length := by
  intro nid b
  induction b generalizing nid with
  | nil => intro vs h; rfl
  | cons c cs ih =>
    intro vs h
    rcases vs with _ | ⟨v, vs⟩
    · simp at h
    · rw [mkRecs, List.map_cons, ih (nid + 1) vs (by simpa using h),
        List.length_cons, List.range'_succ]

theorem mkRecs_length : ∀ (nid : Nat) (b : List (List Char)) (vs : List Nat),
    b.length ≤ vs.length → (mkRecs nid b vs).length = b.length := by
  intro nid b
  induction b generalizing nid with
  | nil => intro vs h; rfl
  | cons c cs ih =>
    intro vs h
    rcases vs with _ | ⟨v, vs⟩
    · simp at h
    · rw [mkRecs, List.length_cons, ih (nid + 1) vs (by simpa using h), List.length_cons]

theorem upsertRecords_append (a b : List Event) :
    upsertRecords (a ++ b) = upsertRecords a ++ upsertRecords b := by
  induction a with
  | nil => rfl
  | cons e tl ih => cases e <;> simp [upsertRecords, ih]

theorem upsertRecords_expectedBatchEvents (env : Env) (name : String) :
    ∀ (bs : List (List (List Char))) (nid : Nat),
      upsertRecords (expectedBatchEvents env name nid bs) = expectedRecords env nid bs := by
  intro bs
  induction bs with
  | nil => intro nid; rfl
  | cons b tl ih => intro nid; simp [expectedBatchEvents, upsertRecords, expectedRecords, ih]

theorem storeBatches_ok_spec (env : Env) (name : String)
    (hlen : ∀ b vs, env.embedDoc b = .ok vs → vs.length = b.length) :
    ∀ (bs : List (List (List Char))) (s : PState) (tr : List Event),
      (storeBatches env name bs s tr).1 = .ok () →
      (storeBatches env name bs s tr).2.2 =
          tr ++ expectedBatchEvents env name s.nextId bs ∧
        (storeBatches env name bs s tr).2.1.nextId =
          s.nextId + (bs.map List.length).sum ∧
        ∀ b ∈ bs, env.embedDoc b = .ok (vsOf env b) := by
  intro bs
  induction bs with
  | nil =>
    intro s tr _
    refine ⟨by simp [storeBatches, expectedBatchEvents], by simp [storeBatches], by simp⟩
  | cons b bs ih =>
    intro s tr hok
    rcases hE : env.embedDoc b with e | embs
    · rw [storeBatches] at hok
      simp [hE] at hok
    · have hv : vsOf env b = embs := by rw [vsOf, hE]
      have hbl : b.length ≤ embs.length := by rw [hlen b embs hE]
      have hB : buildRecords s.nextId b embs = .ok (mkRecs s.nextId b embs) :=
        buildRecords_eq s.nextId b embs hbl
      rcases hU : env.upsertOk name with e | u
      · rw [storeBatches] at hok
        simp [hE, hB, hU] at hok
      · have hstep : storeBatches env name (b :: bs) s tr =
            storeBatches env name bs { s with nextId := s.nextId + b.length }
              (tr ++ [Event.embedDoc b] ++ [Event.upsert name (mkRecs s.nextId b embs)]) := by
          rw [storeBatches]
          simp [hE, hB, hU]
        rw [hstep] at hok ⊢
        obtain ⟨ih1, ih2, ih3⟩ := ih { s with nextId := s.nextId + b.length }
          (tr ++ [Event.embedDoc b] ++ [Event.upsert name (mkRecs s.nextId b embs)]) hok
        refine ⟨?_, ?_, ?_⟩
        · rw [ih1]
          simp [expectedBatchEvents, hv]
        · rw [ih2]
          simp
          omega
        · intro b2 hb2
          rcases List.mem_cons.mp hb2 with h1 | h2
          · subst h1; rw [hE, hv]
          · exact ih3 b2 h2

theorem expectedRecords_mem_length (env : Env) :
    ∀ (bs : List (List (List Char))) (nid : Nat),
      (∀ b ∈ bs, (vsOf env b).length = b.length) →
      (∀ b ∈ bs, b.length ≤ 50) →
      ∀ recs ∈ expectedRecords env nid bs, recs.length ≤ 50 := by
  intro bs
  induction bs with
  | nil => intro nid _ _ recs h; simp [expectedRecords] at h
  | cons b bs ih =>
    intro nid hv h50 recs h
    rcases List.mem_cons.mp h with h1 | h2
    · subst h1
      rw [mkRecs_length nid b (vsOf env b) (by rw [hv b (by simp)])]
      exact h50 b (by simp)
    · exact ih (nid + b.length) (fun x hx => hv x (by simp [hx]))
        (fun x hx => h50 x (by simp [hx])) recs h2

theorem expectedRecords_texts (env : Env) :
    ∀ (bs : List (List (List Char))) (nid : Nat),
      (∀ b ∈ bs, (vsOf env b).length = b.length) →
      ((expectedRecords env nid bs).flatten).map VectorRecord.text = bs.flatten := by
  intro bs
  induction bs with
  | nil => intro nid _; rfl
  | cons b bs ih =>
    intro nid hv
    rw [expectedRecords, List.flatten_cons, List.map_append,
      mkRecs_map_text nid b (vsOf env b) (by rw [hv b (by simp)]),
      ih (nid + b.length) (fun x hx => hv x (by simp [hx])), List.flatten_cons]

theorem expectedRecords_ids (env : Env) :
    ∀ (bs : List (List (List Char))) (nid : Nat),
      (∀ b ∈ bs, (vsOf env b).length = b.length) →
      ((expectedRecords env nid bs).flatten).map VectorRecord.id =
        List.range' nid (bs.map List.length).sum := by
  intro bs
  induction bs with
  | nil => intro nid _; rfl
  | cons b bs ih =>
    intro nid hv
    rw [expectedRecords, List.flatten_cons, List.map_append,
      mkRecs_map_id nid b (vsOf env b) (by rw [hv b (by simp)]),
      ih (nid + b.length) (fun x hx => hv x (by simp [hx]))]
    rw [List.map_cons, List.sum_cons, range'_split]

theorem expectedRecords_batches (env : Env) (name : String) :
    ∀ (bs : List (List (List Char))) (nid : Nat),
      (∀ b ∈ bs, (vsOf env b).length = b.length) →
      ∀ recs ∈ expectedRecords env nid bs, ∃ b ∈ bs,
        Event.embedDoc b ∈ expectedBatchEvents env name nid bs ∧
        recs.map VectorRecord.text = b ∧
        recs.map VectorRecord.values = vsOf env b := by
  intro bs
  induction bs with
  | nil => intro nid _ recs h; simp [expectedRecords] at h
  | cons b bs ih =>
    intro nid hv recs h
    rcases List.mem_cons.mp h with h1 | h2
    · subst h1
      have hl : (vsOf env b).length = b.length := hv b (by simp)
      exact ⟨b, by simp, by simp [expectedBatchEvents],
        mkRecs_map_text nid b (vsOf env b) (by rw [hl]),
        mkRecs_map_values nid b (vsOf env b) hl⟩
    · obtain ⟨b2, hb2, hmem, ht, hvv⟩ :=
        ih (nid + b.length) (fun x hx => hv x (by simp [hx])) recs h2
      exact ⟨b2, by simp [hb2], by simp [expectedBatchEvents, hmem], ht, hvv⟩

/-- C7: on a fully successful run of the embed-and-store step (with the
embedding service honouring positional correspondence: one vector per
input text), the chunks are processed in order in batches of at most
50; the trace is exactly one embedding call followed by one upsert per
batch; each chunk yields exactly one record whose metadata text is that
chunk and whose values are the embedding at the chunk's position in its
batch; and the record ids (`uuid.uuid4()` modelled as a fresh supply
threaded through the state) are the fresh consecutive identifiers from
`s.nextId`, pairwise distinct and never overlapping any other interval
of the supply — across records, documents and runs that thread the
state. -/
theorem embed_and_store_chunks_batches (env : Env) (chunks : List (List Char))
    (name : String) (s : PState) (tr : List Event)
    (hlen : ∀ b vs, env.embedDoc b = .ok vs → vs.length = b.length)
    (hok : (embed_and_store_chunks env chunks name s tr).1 = .ok ()) :
    (embed_and_store_chunks env chunks name s tr).2.2 =
        tr ++ (if name ∈ env.listIndexes then [] else [Event.createIndex name]) ++
          expectedBatchEvents env name s.nextId (toBatches 50 chunks) ∧
      upsertRecords (embed_and_store_chunks env chunks name s tr).2.2 =
        upsertRecords tr ++ expectedRecords env s.nextId (toBatches 50 chunks) ∧
      (∀ recs ∈ expectedRecords env s.nextId (toBatches 50 chunks), recs.length ≤ 50) ∧
      ((expectedRecords env s.nextId (toBatches 50 chunks)).flatten).map
          VectorRecord.text = chunks ∧
      ((expectedRecords env s.nextId (toBatches 50 chunks)).flatten).map
          VectorRecord.id = List.range' s.nextId chunks.length ∧
      (((expectedRecords env s.nextId (toBatches 50 chunks)).flatten).map
          VectorRecord.id).Nodup ∧
      (embed_and_store_chunks env chunks name s tr).2.1.nextId =
        s.nextId + chunks.length ∧
      (∀ recs ∈ expectedRecords env s.nextId (toBatches 50 chunks), ∃ b,
        Event.embedDoc b ∈ (embed_and_store_chunks env chunks name s tr).2.2 ∧
        recs.map VectorRecord.text = b ∧
        recs.map VectorRecord.values = vsOf env b) := by
  have hsum : ((toBatches 50 chunks).map List.length).sum = chunks.length := by
    rw [← List.length_flatten, toBatches_flatten 50 (by omega) chunks]
  have hspec :
      (embed_and_store_chunks env chunks name s tr).2.2 =
          tr ++ (if name ∈ env.listIndexes then [] else [Event.createIndex name]) ++
            expectedBatchEvents env name s.nextId (toBatches 50 chunks) ∧
        (embed_and_store_chunks env chunks name s tr).2.1.nextId =
          s.nextId + chunks.length ∧
        ∀ b ∈ toBatches 50 chunks, env.embedDoc b = .ok (vsOf env b) := by
    unfold embed_and_store_chunks at hok ⊢
    by_cases hm : name ∈ env.listIndexes
    · rw [if_pos hm] at hok ⊢
      obtain ⟨h1, h2, h3⟩ := storeBatches_ok_spec env name hlen (toBatches 50 chunks) s tr hok
      exact ⟨by rw [h1]; simp [hm], by rw [h2, hsum], h3⟩
    · rw [if_neg hm] at hok ⊢
      rcases hC : env.createOk name with e | u
      · simp [hC] at hok
      · simp only [hC] at hok ⊢
        obtain ⟨h1, h2, h3⟩ := storeBatches_ok_spec env name hlen (toBatches 50 chunks) s
          (tr ++ [Event.createIndex name]) hok
        exact ⟨by rw [h1]; simp [hm], by rw [h2, hsum], h3⟩
  obtain ⟨htr, hnid, hall⟩ := hspec
  have hv : ∀ b ∈ toBatches 50 chunks, (vsOf env b).length = b.length :=
    fun b hb => hlen b (vsOf env b) (hall b hb)
  have h50 : ∀ b ∈ toBatches 50 chunks, b.length ≤ 50 :=
    fun b hb => toBatches_mem_length 50 (by omega) chunks b hb
  have hids := expectedRecords_ids env (toBatches 50 chunks) s.nextId hv
  rw [hsum] at hids
  refine ⟨htr, ?_, expectedRecords_mem_length env (toBatches 50 chunks) s.nextId hv h50,
    ?_, hids, ?_, hnid, ?_⟩
  · rw [htr, upsertRecords_append, upsertRecords_append,
      upsertRecords_expectedBatchEvents]
    have : upsertRecords (if name ∈ env.listIndexes then ([] : List Event)
        else [Event.createIndex name]) = [] := by
      by_cases hm : name ∈ env.listIndexes <;> simp [hm, upsertRecords]
    rw [this]
    simp
  · rw [expectedRecords_texts env (toBatches 50 chunks) s.nextId hv,
      toBatches_flatten 50 (by omega) chunks]
  · rw [hids]
    exact List.nodup_range' _ _
  · intro recs hrecs
    obtain ⟨b, _, hmem, ht, hvv⟩ :=
      expectedRecords_batches env name (toBatches 50 chunks) s.nextId hv recs hrecs
    exact ⟨b, by rw [htr]; simp [hmem], ht, hvv⟩

/-- C7 witness: a concrete two-chunk store run, with the hypotheses
discharged and the fresh-id accounting conclusion instantiated. -/
theorem embed_and_store_chunks_batches_witness :
    (∀ b vs, okEnv.embedDoc b = .ok vs → vs.length = b.length) ∧
    (embed_and_store_chunks okEnv ["hi".data, "yo".data] "idx" s0 []).1 = .ok () ∧
    (embed_and_store_chunks okEnv ["hi".data, "yo".data] "idx" s0 []).2.1.nextId =
      s0.nextId + (["hi".data, "yo".data] : List (List Char)).length := by
  have h1 : ∀ b vs, okEnv.embedDoc b = .ok vs → vs.length = b.length := by
    intro b vs h
    simp only [okEnv] at h
    obtain rfl := Except.ok.inj h
    simp
  have h2 : (embed_and_store_chunks okEnv ["hi".data, "yo".data] "idx" s0 []).1 = .ok () := by
    rfl
  exact ⟨h1, h2,
    (embed_and_store_chunks_batches okEnv ["hi".data, "yo".data] "idx" s0 [] h1
      h2).2.2.2.2.2.2.1⟩

/-! ## C9: every chunk respects the 1000-character bound

With the library's default separators, the last separator is `""`, whose
pieces are single characters, so the "indivisible token longer than the
chunk size" exception of the claim can never fire: the bound holds
unconditionally. -/

theorem dropWhile_length_le (p : Char → Bool) :
    ∀ l : List Char, (l.dropWhile p).length ≤ l.length := by
  intro l
  induction l with
  | nil => simp
  | cons x xs ih =>
    rw [List.dropWhile_cons]
    by_cases h : p x = true
    · simp only [h, if_true, List.length_cons]
      omega
    · simp [h]

theorem pyStrip_length_le (l : List Char) : (pyStrip l).length ≤ l.length := by
  unfold pyStrip
  calc ((l.dropWhile isPySpace).reverse.dropWhile isPySpace).reverse.length
      = ((l.dropWhile isPySpace).reverse.dropWhile isPySpace).length := by
        rw [List.length_reverse]
    _ ≤ (l.dropWhile isPySpace).reverse.length := dropWhile_length_le _ _
    _ = (l.dropWhile isPySpace).length := by rw [List.length_reverse]
    _ ≤ l.length := dropWhile_length_le _ _

theorem joinDocs_length (docs : List (List Char)) (c : List Char)
    (h : joinDocs docs = some c) : c.length ≤ (docs.map List.length).sum := by
  unfold joinDocs at h
  by_cases he : pyStrip docs.flatten = []
  · rw [if_pos he] at h
    cases h
  · rw [if_neg he] at h
    obtain rfl := Option.some.inj h
    calc (pyStrip docs.flatten).length ≤ docs.flatten.length := pyStrip_length_le _
      _ = (docs.map List.length).sum := List.length_flatten _

theorem popSplits_spec (lenD : Nat) :
    ∀ (cur : List (List Char)) (total : Nat),
      total = (cur.map List.length).sum →
      (popSplits lenD cur total).2 =
          ((popSplits lenD cur total).1.map List.length).sum ∧
        (popSplits lenD cur total).2 ≤ chunkOverlap ∧
        ((popSplits lenD cur total).2 + lenD ≤ chunkSize ∨
          (popSplits lenD cur total).2 = 0) := by
  intro cur
  induction cur with
  | nil =>
    intro total h
    simp at h
    subst h
    refine ⟨by simp [popSplits], by simp [popSplits, chunkOverlap], Or.inr (by simp [popSplits])⟩
  | cons c rest ih =>
    intro total h
    simp only [List.map_cons, List.sum_cons] at h
    by_cases hc : chunkOverlap < total ∨ (chunkSize < total + lenD ∧ 0 < total)
    · rw [popSplits, if_pos hc]
      exact ih (total - c.length) (by omega)
    · rw [popSplits, if_neg hc]
      push_neg at hc
      exact ⟨by simpa using h, by omega, by omega⟩

theorem mergeStep_inv (st : MergeSt) (d : List Char)
    (h1 : st.total = (st.cur.map List.length).sum)
    (h2 : st.total ≤ chunkSize)
    (h3 : ∀ c ∈ st.docs, c.length ≤ chunkSize)
    (hd : d.length < chunkSize) :
    (mergeStep st d).total = ((mergeStep st d).cur.map List.length).sum ∧
      (mergeStep st d).total ≤ chunkSize ∧
      ∀ c ∈ (mergeStep st d).docs, c.length ≤ chunkSize := by
  unfold mergeStep
  by_cases hc : chunkSize < st.total + d.length ∧ st.cur ≠ []
  · rw [if_pos hc]
    obtain ⟨hp1, hp2, hp3⟩ := popSplits_spec d.length st.cur st.total h1
    refine ⟨?_, ?_, ?_⟩
    · simp [hp1]
    · simp only []
      rcases hp3 with h | h
      · omega
      · omega
    · intro c hcm
      simp only [] at hcm
      rcases List.mem_append.mp hcm with hm | hm
      · exact h3 c hm
      · have : joinDocs st.cur = some c := by
          rcases hj : joinDocs st.cur with _ | c2
          · rw [hj] at hm; simp at hm
          · rw [hj] at hm
            simp at hm
            rw [hm]
        calc c.length ≤ (st.cur.map List.length).sum := joinDocs_length st.cur c this
          _ = st.total := h1.symm
          _ ≤ chunkSize := h2
  · rw [if_neg hc]
    push_neg at hc
    refine ⟨by simp [h1], ?_, h3⟩
    simp only []
    by_cases hlt : chunkSize < st.total + d.length
    · have hnil : st.cur = [] := hc hlt
      have : st.total = 0 := by rw [h1, hnil]; rfl
      omega
    · omega

theorem mergeSplits_bound (splits : List (List Char))
    (hs : ∀ d ∈ splits, d.length < chunkSize) :
    ∀ c ∈ mergeSplits splits, c.length ≤ chunkSize := by
  have hfold : ∀ (l : List (List Char)) (st : MergeSt),
      (∀ d ∈ l, d.length < chunkSize) →
      st.total = (st.cur.map List.length).sum → st.total ≤ chunkSize →
      (∀ c ∈ st.docs, c.length ≤ chunkSize) →
      (l.foldl mergeStep st).total = ((l.foldl mergeStep st).cur.map List.length).sum ∧
        (l.foldl mergeStep st).total ≤ chunkSize ∧
        ∀ c ∈ (l.foldl mergeStep st).docs, c.length ≤ chunkSize := by
    intro l
    induction l with
    | nil => intro st _ h1 h2 h3; exact ⟨h1, h2, h3⟩
    | cons d rest ih =>
      intro st hl h1 h2 h3
      rw [List.foldl_cons]
      obtain ⟨g1, g2, g3⟩ := mergeStep_inv st d h1 h2 h3 (hl d (by simp))
      exact ih (mergeStep st d) (fun x hx => hl x (by simp [hx])) g1 g2 g3
  obtain ⟨g1, g2, g3⟩ := hfold splits (MergeSt.mk [] [] 0) hs (by simp) (by simp [chunkSize]) (by simp)
  intro c hc
  unfold mergeSplits at hc
  rcases List.mem_append.mp hc with hm | hm
  · exact g3 c hm
  · have hj : joinDocs (splits.foldl mergeStep (MergeSt.mk [] [] 0)).cur = some c := by
      rcases hj2 : joinDocs (splits.foldl mergeStep (MergeSt.mk [] [] 0)).cur with _ | c2
      · rw [hj2] at hm; simp at hm
      · rw [hj2] at hm
        simp at hm
        rw [hm]
    calc c.length
        ≤ ((splits.foldl mergeStep (MergeSt.mk [] [] 0)).cur.map List.length).sum :=
          joinDocs_length _ c hj
      _ = (splits.foldl mergeStep (MergeSt.mk [] [] 0)).total := g1.symm
      _ ≤ chunkSize := g2

theorem splitWithSep_nil_length (text : List Char) :
    ∀ s ∈ splitWithSep [] text, s.length = 1 := by
  intro s h
  unfold splitWithSep at h
  rw [List.mem_filter] at h
  obtain ⟨c, _, rfl⟩ := List.mem_map.mp h.1
  rfl

theorem chooseSepAux_spec (dflt : List Char) :
    ∀ (seps : List (List Char)) (text : List Char), [] ∈ seps →
      ((chooseSepAux dflt seps text).2 = [] → (chooseSepAux dflt seps text).1 = []) ∧
      ((chooseSepAux dflt seps text).2 ≠ [] → [] ∈ (chooseSepAux dflt seps text).2) ∧
      ((chooseSepAux dflt seps text).2 = [] ∨
        (chooseSepAux dflt seps text).2.length < seps.length) := by
  intro seps
  induction seps with
  | nil => intro text hmem; simp at hmem
  | cons s rest ih =>
    intro text hmem
    by_cases h1 : s = []
    · rw [chooseSepAux, if_pos h1]
      exact ⟨fun _ => rfl, fun h => absurd rfl h, Or.inl rfl⟩
    · have hrest : [] ∈ rest := by
        rcases List.mem_cons.mp hmem with h | h
        · exact absurd h.symm h1
        · exact h
      rw [chooseSepAux, if_neg h1]
      by_cases h2 : hasInfix s text = true
      · rw [if_pos h2]
        refine ⟨fun hr => ?_, fun _ => hrest, Or.inr (by simp)⟩
        simp only at hr
        rw [hr] at hrest
        simp at hrest
      · rw [if_neg h2]
        obtain ⟨g1, g2, g3⟩ := ih text hrest
        refine ⟨g1, g2, ?_⟩
        rcases g3 with g | g
        · exact Or.inl g
        · exact Or.inr (by simp; omega)

theorem chooseSep_spec (seps : List (List Char)) (text : List Char) (hmem : [] ∈ seps) :
    ((chooseSep seps text).2 = [] → (chooseSep seps text).1 = []) ∧
      ((chooseSep seps text).2 ≠ [] → [] ∈ (chooseSep seps text).2) ∧
      ((chooseSep seps text).2 = [] ∨ (chooseSep seps text).2.length < seps.length) :=
  chooseSepAux_spec (seps.getLastD []) seps text hmem

theorem splitLoop_bound (recur : List Char → List (List Char)) (noNew : Bool)
    (hrec : noNew = false → ∀ s c, c ∈ recur s → c.length ≤ chunkSize) :
    ∀ (splits goods : List (List Char)),
      (noNew = true → ∀ s ∈ splits, s.length = 1) →
      (∀ g ∈ goods, g.length < chunkSize) →
      ∀ c ∈ splitLoop recur noNew splits goods, c.length ≤ chunkSize := by
  intro splits
  induction splits with
  | nil =>
    intro goods _ hg c hc
    rw [splitLoop] at hc
    by_cases hne : goods ≠ []
    · rw [if_pos hne] at hc
      exact mergeSplits_bound goods hg c hc
    · rw [if_neg hne] at hc
      simp at hc
  | cons s rest ih =>
    intro goods h1 hg c hc
    rw [splitLoop] at hc
    by_cases hlt : s.length < chunkSize
    · rw [if_pos hlt] at hc
      refine ih (goods ++ [s]) (fun ht x hx => h1 ht x (by simp [hx])) ?_ c hc
      intro g hgm
      rcases List.mem_append.mp hgm with h | h
      · exact hg g h
      · simp at h
        rw [h]
        exact hlt
    · rw [if_neg hlt] at hc
      rcases List.mem_append.mp hc with hm | hm
      · rcases List.mem_append.mp hm with hm2 | hm2
        · by_cases hne : goods ≠ []
          · rw [if_pos hne] at hm2
            exact mergeSplits_bound goods hg c hm2
          · rw [if_neg hne] at hm2
            simp at hm2
        · cases hN : noNew with
          | true =>
            rw [hN] at hm2
            simp at hm2
            rw [hm2, h1 hN s (by simp)]
            simp [chunkSize]
          | false =>
            rw [hN] at hm2
            simp at hm2
            exact hrec hN s c hm2
      · exact ih [] (fun ht x hx => h1 ht x (by simp [hx])) (by simp) c hm

theorem splitTextRec_bound :
    ∀ (fuel : Nat) (seps : List (List Char)) (text : List Char),
      [] ∈ seps → seps.length ≤ fuel →
      ∀ c ∈ splitTextRec fuel seps text, c.length ≤ chunkSize := by
  intro fuel
  induction fuel with
  | zero =>
    intro seps text hmem hlen
    have : seps ≠ [] := List.ne_nil_of_mem hmem
    have : 0 < seps.length := List.length_pos.mpr this
    omega
  | succ fuel ih =>
    intro seps text hmem hlen c hc
    rw [splitTextRec] at hc
    obtain ⟨g1, g2, g3⟩ := chooseSep_spec seps text hmem
    refine splitLoop_bound _ _ ?_ _ [] ?_ (by simp) c hc
    · intro hne s c2 hc2
      have hne2 : (chooseSep seps text).2 ≠ [] := by
        simpa [List.isEmpty_iff] using hne
      have hmem2 : [] ∈ (chooseSep seps text).2 := g2 hne2
      have hlen2 : (chooseSep seps text).2.length ≤ fuel := by
        rcases g3 with g | g
        · exact absurd g hne2
        · omega
      exact ih (chooseSep seps text).2 s hmem2 hlen2 c2 hc2
    · intro ht s hs
      have hnil : (chooseSep seps text).2 = [] := by
        simpa [List.isEmpty_iff] using ht
      rw [g1 hnil] at hs
      exact splitWithSep_nil_length text s hs

/-- C9: with `chunk_size = 1000` and `chunk_overlap = 100`, every chunk
`chunk_text` produces has length at most 1000.  (The claim's exception —
a single indivisible token longer than 1000 kept whole — can never fire,
because the default separator hierarchy ends with `""`, whose pieces are
single characters; the unconditional bound implies the claim as
stated.) -/
theorem chunk_text_length_le (text : List Char) :
    ∀ c ∈ chunk_text text, c.length ≤ 1000 := by
  intro c hc
  have := splitTextRec_bound defaultSeparators.length defaultSeparators text
    (by simp [defaultSeparators]) (Nat.le_refl _) c hc
  simpa [chunkSize] using this

/-- C9 witness: a concrete text, its chunk, and the bound at it. -/
theorem chunk_text_length_le_witness :
    "hello world".data ∈ chunk_text "hello world".data ∧
      ("hello world".data).length ≤ 1000 :=
  ⟨by decide, chunk_text_length_le "hello world".data "hello world".data (by decide)⟩

end Rag
